import Mathlib

/-!
Verification development for the Google Drive folder-structure replicator
(`streamlit_app.py`).  The two core functions, `get_folder_structure`
(the tree reader) and `create_folder_structure` (the tree writer), are
shallowly embedded below.

Modelling conventions:
* A relative path (a slash-joined sequence of folder names, root = the
  empty string) is modelled as a `List String` of its segments, the empty
  path being `[]`.  `os.path.dirname` is `List.dropLast`,
  `os.path.join path name` is `path ++ [name]`, and `path.count(os.sep)`
  is `path.length - 1` (both the empty path and a single-segment path
  contain no separator, matching `Nat` subtraction).
* Python dicts are modelled as association lists in insertion order:
  assignment overwrites the value in place for an existing key and
  appends a new key at the end, as CPython dicts do.
* Remote Drive calls are modelled by explicit service behaviours; each
  embedded function also returns the list of remote calls it issued, and
  an `exn` field records a propagating Python exception together with the
  state reached when it was raised.
-/

/-- First-match lookup in an association list keyed by paths
(models `d[k]` / `d.get(k)` on a Python dict). -/
def alGet {β : Type} : List (List String × β) → List String → Option β
  | [], _ => none
  | (k, v) :: rest, q => if k = q then some v else alGet rest q

/-- Key-membership test (models `k in d` on a Python dict). -/
def alHas {β : Type} (m : List (List String × β)) (q : List String) : Bool :=
  (alGet m q).isSome

/-- Assignment `d[k] = v` on a Python dict: overwrite in place when the key
exists, otherwise append the new binding at the end. -/
def alSet {β : Type} : List (List String × β) → List String → β → List (List String × β)
  | [], q, v => [(q, v)]
  | (k, w) :: rest, q, v => if k = q then (k, v) :: rest else (k, w) :: alSet rest q v

/-- The keys of the dict, in insertion order (models `d.keys()`). -/
def alKeys {β : Type} (m : List (List String × β)) : List (List String) :=
  m.map Prod.fst

/-- A Structure: the path-keyed mapping from a relative folder path to the
ordered list of child folder names recorded directly under that path. -/
def Struct : Type := List (List String × List String)

/-- Reading `structure[path]`, defaulting to no children when the key is
absent (the source only indexes keys it knows exist; the default makes the
combined test `"" in structure and x in structure[""]` one lookup). -/
def structLookup (s : Struct) (k : List String) : List String :=
  (alGet s k).getD []

/-- Lines 129-131 of the source: `if path not in structure:
structure[path] = []` followed by `structure[path].append(folder_name)`. -/
def appendAt (s : Struct) (k : List String) (n : String) : Struct :=
  alSet s k (structLookup s k ++ [n])

theorem alKeys_cons {β : Type} (k : List String) (w : β) (rest : List (List String × β)) :
    alKeys ((k, w) :: rest) = k :: alKeys rest := rfl

theorem alGet_alSet_self {β : Type} (m : List (List String × β)) (q : List String) (v : β) :
    alGet (alSet m q v) q = some v := by
  induction m with
  | nil => simp [alGet, alSet]
  | cons kv rest ih =>
    obtain ⟨k, w⟩ := kv
    by_cases h : k = q
    · rw [alSet, if_pos h, alGet, if_pos h]
    · rw [alSet, if_neg h, alGet, if_neg h, ih]

theorem alGet_alSet_ne {β : Type} (m : List (List String × β)) (q p : List String) (v : β)
    (h : p ≠ q) : alGet (alSet m q v) p = alGet m p := by
  have hqp : ¬ q = p := fun hh => h hh.symm
  induction m with
  | nil => simp [alSet, alGet, hqp]
  | cons kv rest ih =>
    obtain ⟨k, w⟩ := kv
    by_cases hk : k = q
    · rw [alSet, if_pos hk, alGet, alGet, if_neg (hk ▸ hqp), if_neg (hk ▸ hqp)]
    · rw [alSet, if_neg hk, alGet, alGet, ih]

theorem mem_alKeys_alSet {β : Type} (m : List (List String × β)) (q p : List String) (v : β) :
    p ∈ alKeys (alSet m q v) ↔ p = q ∨ p ∈ alKeys m := by
  induction m with
  | nil =>
    rw [alSet, alKeys_cons]
    simp [alKeys]
  | cons kv rest ih =>
    obtain ⟨k, w⟩ := kv
    by_cases hk : k = q
    · rw [alSet, if_pos hk, alKeys_cons, alKeys_cons, hk]
      simp
    · rw [alSet, if_neg hk, alKeys_cons, alKeys_cons]
      simp only [List.mem_cons, ih]
      tauto

theorem mem_alKeys_of_alGet {β : Type} (m : List (List String × β)) (p : List String) (v : β)
    (h : alGet m p = some v) : p ∈ alKeys m := by
  induction m with
  | nil => simp [alGet] at h
  | cons kv rest ih =>
    obtain ⟨k, w⟩ := kv
    rw [alKeys_cons]
    by_cases hk : k = p
    · subst hk
      exact List.mem_cons_self _ _
    · rw [alGet, if_neg hk] at h
      exact List.mem_cons_of_mem _ (ih h)

theorem alGet_eq_none_of_not_mem {β : Type} (m : List (List String × β)) (p : List String)
    (h : p ∉ alKeys m) : alGet m p = none := by
  cases hh : alGet m p with
  | none => rfl
  | some v => exact absurd (mem_alKeys_of_alGet m p v hh) h

theorem alGet_isSome_of_mem {β : Type} (m : List (List String × β)) (p : List String)
    (h : p ∈ alKeys m) : (alGet m p).isSome = true := by
  induction m with
  | nil => simp [alKeys] at h
  | cons kv rest ih =>
    obtain ⟨k, w⟩ := kv
    by_cases hk : k = p
    · rw [alGet, if_pos hk]
      rfl
    · rw [alGet, if_neg hk]
      rw [alKeys_cons, List.mem_cons] at h
      rcases h with h | h
      · exact absurd h.symm hk
      · exact ih h

theorem alHas_iff_mem {β : Type} (m : List (List String × β)) (p : List String) :
    alHas m p = true ↔ p ∈ alKeys m := by
  constructor
  · intro h
    unfold alHas at h
    cases hh : alGet m p with
    | none => rw [hh] at h; simp at h
    | some v => exact mem_alKeys_of_alGet m p v hh
  · exact alGet_isSome_of_mem m p

theorem structLookup_appendAt_self (s : Struct) (k : List String) (n : String) :
    structLookup (appendAt s k n) k = structLookup s k ++ [n] := by
  unfold appendAt structLookup
  rw [alGet_alSet_self]
  rfl

theorem structLookup_appendAt_ne (s : Struct) (k q : List String) (n : String) (h : q ≠ k) :
    structLookup (appendAt s k n) q = structLookup s q := by
  unfold appendAt structLookup
  rw [alGet_alSet_ne _ _ _ _ h]

/-- Number of path separators in a path, the sort key of the writer
(`x.count(os.sep)`): one less than the number of segments, with the empty
path counting zero. -/
def sepCount (k : List String) : Nat := k.length - 1

/-- Stable insertion of a path into a list sorted by separator count:
the new element goes before the first element whose count is not smaller,
so that elements with equal counts keep their original relative order,
as Python's stable `sorted` does. -/
def sinsert (x : List String) : List (List String) → List (List String)
  | [] => [x]
  | y :: ys => if sepCount y < sepCount x then y :: sinsert x ys else x :: y :: ys

/-- Stable sort of the structure's keys by separator count, modelling
`sorted(structure.keys(), key=lambda x: x.count(os.sep))` (line 198). -/
def ssort : List (List String) → List (List String)
  | [] => []
  | x :: xs => sinsert x (ssort xs)

theorem mem_sinsert (a x : List String) (l : List (List String)) :
    a ∈ sinsert x l ↔ a = x ∨ a ∈ l := by
  induction l with
  | nil => simp [sinsert]
  | cons y ys ih =>
    by_cases h : sepCount y < sepCount x
    · simp [sinsert, h, ih]
      tauto
    · simp [sinsert, h]

theorem mem_ssort (a : List String) (l : List (List String)) :
    a ∈ ssort l ↔ a ∈ l := by
  induction l with
  | nil => simp [ssort]
  | cons x xs ih => simp [ssort, mem_sinsert, ih]

theorem pairwise_sinsert (x : List String) (l : List (List String))
    (h : l.Pairwise (fun a b => sepCount a ≤ sepCount b)) :
    (sinsert x l).Pairwise (fun a b => sepCount a ≤ sepCount b) := by
  induction l with
  | nil => simp [sinsert]
  | cons y ys ih =>
    rw [List.pairwise_cons] at h
    obtain ⟨hy, hys⟩ := h
    by_cases hc : sepCount y < sepCount x
    · rw [sinsert, if_pos hc, List.pairwise_cons]
      refine ⟨?_, ih hys⟩
      intro a ha
      rw [mem_sinsert] at ha
      rcases ha with rfl | ha
      · exact Nat.le_of_lt hc
      · exact hy a ha
    · rw [sinsert, if_neg hc, List.pairwise_cons]
      refine ⟨?_, by rw [List.pairwise_cons]; exact ⟨hy, hys⟩⟩
      intro a ha
      rcases ha with _ | ha
      · exact Nat.le_of_not_lt hc
      · exact le_trans (Nat.le_of_not_lt hc) (hy a (by assumption))

theorem pairwise_ssort (l : List (List String)) :
    (ssort l).Pairwise (fun a b => sepCount a ≤ sepCount b) := by
  induction l with
  | nil => simp [ssort]
  | cons x xs ih => exact pairwise_sinsert x (ssort xs) ih

/-- Python exceptions that the embedded code can raise or receive. -/
inductive PyErr where
  /-- calling a `None` value, as in `progress_callback(...)` when the
  callback argument is `None` -/
  | typeError
  /-- an error raised by a remote Drive call; the flag records whether
  `str(e)` contains the substring `includeItemsFromAllDrives` (the only
  property of the message the source inspects, line 156) -/
  | apiErr (mentionsIncludeParam : Bool)
deriving DecidableEq

/-- Progress messages sent by the writer to a present progress callback.
The purely informational debug messages of lines 192-200 and 212-213 only
emit text and are omitted; the messages that the specification refers to
(the missing-parent warning, the created notice, the creation error) are
kept, with their dynamic data as fields. -/
inductive WMsg where
  | warnMissingParent (parentPath : List String)
  | created (fullPath : List String) (newId : String)
  | createError (path : List String) (cname : String)
deriving DecidableEq

/-- One folder-creation request issued to the remote service
(`service.files().create(...)`, line 241): the metadata name, the parent
id sent in `parents`, and the full relative path the call is for
(`os.path.join(path, folder_name)`, determined by the loop variables). -/
structure WCall where
  cname : String
  parentId : String
  fullPath : List String
deriving DecidableEq

/-- The remote folder-creation capability: the outcome of the n-th
creation call of the run (counting from 0) — either the new folder id or
an exception, which the source catches per folder (lines 240-255). -/
structure WSvc where
  create : Nat → Except PyErr String

/-- The state of one writer run: the FolderIdMap (`folder_id_map`), the
number of creation calls issued so far, the list of creation calls, the
progress messages sent, and — because line 217 can raise `TypeError` when
`progress_callback` is `None` — the exception that aborted the run, if
any.  When `exn` is set, the remaining iterations do nothing, and the
other fields describe the run up to the raise. -/
structure WRun where
  map : List (List String × String)
  nCalls : Nat
  calls : List WCall
  log : List WMsg
  exn : Option PyErr
deriving DecidableEq

/-- The body of the inner loop `for folder_name in structure[path]`
(lines 223-255): skip the source folder at the root level, otherwise
issue the creation call, and on success record
`folder_id_map[new_path] = new_folder_id`. -/
def processName (svc : WSvc) (hasCb : Bool) (src : String) (path : List String)
    (parentId : String) (r : WRun) (nm : String) : WRun :=
  if path = [] ∧ nm = src then r
  else
    match svc.create r.nCalls with
    | Except.ok newId =>
      let newPath := path ++ [nm]
      { map := alSet r.map newPath newId
        nCalls := r.nCalls + 1
        calls := r.calls ++ [⟨nm, parentId, newPath⟩]
        log := r.log ++ (if hasCb then [WMsg.created newPath newId] else [])
        exn := r.exn }
    | Except.error _e =>
      { r with
        nCalls := r.nCalls + 1
        calls := r.calls ++ [⟨nm, parentId, path ++ [nm]⟩]
        log := r.log ++ (if hasCb then [WMsg.createError path nm] else []) }

/-- The body of the outer loop `for path in paths` (lines 203-255): skip
the root path when the source folder name sits at the empty path; resolve
`parent_path = os.path.dirname(path)`; if the parent path is missing from
the map, warn and skip — note that line 217 calls `progress_callback`
without the `if progress_callback:` guard used everywhere else, so a
`None` callback raises `TypeError` here; otherwise create every child of
this path under `folder_id_map.get(parent_path, destination_folder_id)`. -/
def processPath (svc : WSvc) (hasCb : Bool) (struct : Struct) (src : String)
    (destId : String) (r : WRun) (path : List String) : WRun :=
  if r.exn.isSome then r
  else if path = [] ∧ src ∈ structLookup struct [] then r
  else
    let parentPath := path.dropLast
    if alHas r.map parentPath = false ∧ path ≠ [] then
      if hasCb then { r with log := r.log ++ [WMsg.warnMissingParent parentPath] }
      else { r with exn := some PyErr.typeError }
    else
      let parentId := (alGet r.map parentPath).getD destId
      (structLookup struct path).foldl (processName svc hasCb src path parentId) r

/-- Lines 184-189: seed `folder_id_map[""] = destination_folder_id` and,
when the source folder name appears among the children of the empty path,
alias `folder_id_map[source_folder_name] = destination_folder_id`. -/
def writerInit (struct : Struct) (src : String) (destId : String) : WRun :=
  let m0 := alSet ([] : List (List String × String)) [] destId
  let m1 := if src ∈ structLookup struct [] then alSet m0 [src] destId else m0
  ⟨m1, 0, [], [], none⟩

/-- Line 198: the structure keys sorted (stably) by separator count. -/
def writerKeys (struct : Struct) : List (List String) :=
  ssort (alKeys struct)

/-- The writer run over an explicit list of path keys (used to reason
about prefixes of the processing order). -/
def runOn (svc : WSvc) (hasCb : Bool) (struct : Struct) (src : String)
    (destId : String) (ks : List (List String)) : WRun :=
  ks.foldl (processPath svc hasCb struct src destId) (writerInit struct src destId)

/-- The writer, `create_folder_structure` (lines 182-257): seed the map,
sort the keys by depth, and process each path level in order. -/
def create_folder_structure (svc : WSvc) (struct : Struct) (src : String)
    (destId : String) (hasCb : Bool) : WRun :=
  runOn svc hasCb struct src destId (writerKeys struct)

/-- The folder mime type used in the query and in the re-check of
line 172. -/
def folderMime : String := "application/vnd.google-apps.folder"

/-- Behaviour of the remote `files().list` capability at one node, as a
function of the parameters the caller sends.  Two API generations exist:
a `legacyOnly` service rejects any call carrying the preferred
`includeItemsFromAllDrives` parameter with an error whose text mentions
that parameter. -/
inductive ListBehavior where
  /-- every call succeeds -/
  | ok
  /-- a call with the preferred cross-drive parameter fails, with an error
  mentioning it; a call without it succeeds -/
  | legacyOnly
  /-- as `legacyOnly`, but the parameter-free call also fails, with `e` -/
  | legacyOnlyBroken (e : PyErr)
  /-- every call fails with `e` -/
  | failAll (e : PyErr)
deriving DecidableEq

/-- The parameters the reader sends with a `files().list` call
(lines 135-149); the query string itself is fixed (folder-typed,
non-trashed children of the current node) and is part of the call
semantics in `execList`. -/
structure ListParams where
  supportsAllDrives : Bool
  driveId : Option String
  corpora : Option String
  includeItemsFromAllDrives : Bool
  includeTeamDriveItems : Bool
deriving DecidableEq

/-- Lines 135-149: build the listing parameters.  For shared drives the
preferred cross-drive parameter is added; the `try/except` around the
plain dict assignment on lines 146-149 can never fail and is dead code. -/
def mkListParams (isShared : Bool) (driveId : Option String) : ListParams :=
  if isShared then
    { supportsAllDrives := true
      driveId := driveId
      corpora := if driveId.isSome then some "drive" else none
      includeItemsFromAllDrives := true
      includeTeamDriveItems := false }
  else
    { supportsAllDrives := false
      driveId := none
      corpora := none
      includeItemsFromAllDrives := false
      includeTeamDriveItems := false }

/-- A node of the remote source tree, carrying the data the two per-node
remote calls can observe, plus the injected behaviour of those calls:
whether `files().get` succeeds (`rmetaOk`) and how `files().list`
responds (`rlistB`). -/
inductive RNode where
  | mk (rid rname rmime : String) (rtrashed rmetaOk : Bool)
      (rlistB : ListBehavior) (rkids : List RNode)

def RNode.idOf : RNode → String
  | .mk i _ _ _ _ _ _ => i

def RNode.nameOf : RNode → String
  | .mk _ n _ _ _ _ _ => n

def RNode.mimeOf : RNode → String
  | .mk _ _ m _ _ _ _ => m

def RNode.trashedOf : RNode → Bool
  | .mk _ _ _ t _ _ _ => t

def RNode.metaOkOf : RNode → Bool
  | .mk _ _ _ _ o _ _ => o

def RNode.listBOf : RNode → ListBehavior
  | .mk _ _ _ _ _ b _ => b

def RNode.kidsOf : RNode → List RNode
  | .mk _ _ _ _ _ _ k => k

/-- The query filter of line 134: the listing returns only the children
that are not trashed and are folder-typed. -/
def passesQuery (c : RNode) : Bool :=
  !c.trashedOf && (c.mimeOf == folderMime)

/-- The remote response to a successful listing call: the query-filtered
children. -/
def queryFilter (cs : List RNode) : List RNode :=
  cs.filter passesQuery

/-- From a raised exception, whether `str(e)` contains
`includeItemsFromAllDrives` (the test of line 156). -/
def mentionsParam : PyErr → Bool
  | PyErr.typeError => false
  | PyErr.apiErr m => m

/-- One `service.files().list(**list_params).execute()` call against a
node with behaviour `b` and raw children `cs`. -/
def execList (b : ListBehavior) (cs : List RNode) (p : ListParams) :
    Except PyErr (List RNode) :=
  match b with
  | ListBehavior.ok => Except.ok (queryFilter cs)
  | ListBehavior.legacyOnly =>
    if p.includeItemsFromAllDrives then Except.error (PyErr.apiErr true)
    else Except.ok (queryFilter cs)
  | ListBehavior.legacyOnlyBroken e =>
    if p.includeItemsFromAllDrives then Except.error (PyErr.apiErr true)
    else Except.error e
  | ListBehavior.failAll e => Except.error e

/-- The retried parameter set of lines 157-159: drop
`includeItemsFromAllDrives`, add `includeTeamDriveItems = True`. -/
def legacyParams (p : ListParams) : ListParams :=
  { p with includeItemsFromAllDrives := false, includeTeamDriveItems := true }

/-- Lines 151-162: try the listing once; if it fails with an error whose
text mentions `includeItemsFromAllDrives`, retry exactly once with the
legacy parameter, otherwise re-raise.  Returns the final outcome and the
parameter sets of the attempts actually issued, in order. -/
def listWithFallback (b : ListBehavior) (cs : List RNode) (p : ListParams) :
    Except PyErr (List RNode) × List ListParams :=
  match execList b cs p with
  | Except.ok items => (Except.ok items, [p])
  | Except.error e =>
    if mentionsParam e then
      (execList b cs (legacyParams p), [p, legacyParams p])
    else (Except.error e, [p])

/-- Progress messages of the reader.  All of the reader's callback uses
are guarded by `if progress_callback:`, so a run without a callback
behaves identically except that the messages are discarded; the log
records the messages a present callback would receive. -/
inductive RMsg where
  | reading (currentPath : List String)
  | errAccess (path : List String) (fid : String)
deriving DecidableEq

instance : DecidableEq Struct :=
  inferInstanceAs (DecidableEq (List (List String × List String)))

/-- The evolving state of a reader run: the structure dict (mutated in
place by the recursion) and the progress messages so far. -/
structure Rd where
  s : Struct
  log : List RMsg
deriving DecidableEq

mutual

/-- The reader, `get_folder_structure` (lines 113-180), at one node:
fetch the metadata (name); on success append the name under the parent
path (lines 129-131, before any listing); list the children with the
one-retry fallback; on listing success recurse into each folder-typed
item; any failure of the metadata or listing call is caught by the
node's `except` (lines 176-178), which reports it and returns the
structure accumulated so far. -/
def readNode (sh : Bool) (dr : Option String) : RNode → List String → Rd → Rd
  | RNode.mk fid nm _mime _tr mOk lb kids, path, r =>
    if mOk then
      let currentPath := path ++ [nm]
      let r1 : Rd := ⟨appendAt r.s path nm, r.log⟩
      match (listWithFallback lb kids (mkListParams sh dr)).1 with
      | Except.ok _items =>
        readKids sh dr kids currentPath ⟨r1.s, r1.log ++ [RMsg.reading currentPath]⟩
      | Except.error _e => ⟨r1.s, r1.log ++ [RMsg.errAccess path fid]⟩
    else ⟨r.s, r.log ++ [RMsg.errAccess path fid]⟩

/-- The loop `for item in items:` of lines 171-174.  A successful listing
returns exactly the query-filtered children (`queryFilter`), so iterating
over the response and re-checking the mime type (line 172) equals walking
the raw children under the combined test below. -/
def readKids (sh : Bool) (dr : Option String) : List RNode → List String → Rd → Rd
  | [], _, r => r
  | c :: rest, path, r =>
    readKids sh dr rest path
      (if passesQuery c && (c.mimeOf == folderMime) then readNode sh dr c path r else r)

end

/-- The outcome of the (possibly retried) listing step at a node, as the
reader performs it. -/
def nodeListing (sh : Bool) (dr : Option String) (t : RNode) :
    Except PyErr (List RNode) :=
  (listWithFallback t.listBOf t.kidsOf (mkListParams sh dr)).1

/-- A full reader run from the source root: empty path, fresh structure
(the top-level call passes `path=""` and `structure=None`). -/
def readRoot (sh : Bool) (dr : Option String) (t : RNode) : Rd :=
  readNode sh dr t [] ⟨[], []⟩

mutual

/-- Whether `n` is the name of a non-trashed, folder-typed child of some
node in the tree rooted at `t` — the only nodes the reader may ever
record besides the root itself. -/
def hasGoodChild : RNode → String → Bool
  | RNode.mk _ _ _ _ _ _ kids, n => hasGoodChildL kids n

/-- List form of `hasGoodChild` over a list of sibling subtrees. -/
def hasGoodChildL : List RNode → String → Bool
  | [], _ => false
  | c :: rest, n =>
    (passesQuery c && (c.nameOf == n)) || hasGoodChild c n || hasGoodChildL rest n

end

/-- The two shared-drive listing endpoints (`service.drives().list` and
the legacy `service.teamdrives().list`). -/
inductive DriveEndpoint where
  | drivesEp
  | teamdrivesEp
deriving DecidableEq

/-- Behaviour of the two shared-drive listing endpoints: the net result
of the paged `while True:` loop over each endpoint (pagination collapsed
into one outcome, since no claim concerns page boundaries). -/
structure DrivesSvc where
  drives : Except PyErr (List String)
  teamdrives : Except PyErr (List String)

/-- `get_shared_drives` (lines 276-302): try the newer `drives()`
endpoint; on ANY failure retry once with the legacy `teamdrives()`
endpoint; if that fails too, the outer handler reports the error and
returns the empty list.  Returns the drives and the endpoints called, in
order. -/
def get_shared_drives (svc : DrivesSvc) : List String × List DriveEndpoint :=
  match svc.drives with
  | Except.ok ds => (ds, [DriveEndpoint.drivesEp])
  | Except.error _ =>
    match svc.teamdrives with
    | Except.ok ds => (ds, [DriveEndpoint.drivesEp, DriveEndpoint.teamdrivesEp])
    | Except.error _ => ([], [DriveEndpoint.drivesEp, DriveEndpoint.teamdrivesEp])

/-- Deterministic id supply for concrete runs: the n-th creation call
returns these ids. -/
def idName : Nat → String
  | 0 => "id0"
  | 1 => "id1"
  | 2 => "id2"
  | _ => "idMore"

/-- A creation service that always succeeds, handing out `idName` ids. -/
def svcSeq : WSvc := ⟨fun n => Except.ok (idName n)⟩

/-- The scenario of the specification, section 8:
`{"": ["A"], "A": ["B", "C"], "A/B": ["D"]}`. -/
def structDemo : Struct := [([], ["A"]), (["A"], ["B", "C"]), (["A", "B"], ["D"])]

/-- A structure whose only key has a parent path absent from the map. -/
def structNoParent : Struct := [(["X", "Y"], ["Z"])]

/-- A structure with duplicate sibling names: the same full path `A/B`
arises twice. -/
def structDup : Struct := [([], ["A"]), (["A"], ["B", "B"])]

/-- C1: the claim says every creation call for a full path
`p = path ++ [name]` is issued under the destination id that FolderIdMap
records for the parent path of `p`, which is `path` itself.  The code
instead resolves `parent_path = os.path.dirname(path)` (line 209) — the
parent of the structure key, i.e. the grandparent of `p` — and creates
all of the key's children under that id.  On the specification's own
scenario, `D` (full path `A/B/D`) is created under `ROOT`, the id mapped
to `A`, although FolderIdMap records `id0` for its parent path `A/B`:
the source hierarchy is flattened from depth 3 on. -/
theorem writer_misplaced_grandchild :
    (create_folder_structure svcSeq structDemo "A" "ROOT" false).calls
      = [⟨"B", "ROOT", ["A", "B"]⟩, ⟨"C", "ROOT", ["A", "C"]⟩,
         ⟨"D", "ROOT", ["A", "B", "D"]⟩]
    ∧ alGet (create_folder_structure svcSeq structDemo "A" "ROOT" false).map ["A", "B"]
      = some "id0"
    ∧ ("ROOT" : String) ≠ "id0" := by
  refine ⟨by decide, by decide, by decide⟩

/-- C5: the claim says a path whose parent is missing from FolderIdMap is
skipped with a recorded warning and the writer never raises, for every
configuration including an absent (`None`) progress callback.  But
line 217 calls `progress_callback(...)` without the `if progress_callback:`
guard used at every other call site, so with callback `None` the branch
raises `TypeError` and the run aborts before any creation call; with a
callback present the claimed warn-and-skip behaviour does occur. -/
theorem writer_none_callback_crash :
    (create_folder_structure svcSeq structNoParent "A" "ROOT" false).exn
      = some PyErr.typeError
    ∧ (create_folder_structure svcSeq structNoParent "A" "ROOT" false).calls = []
    ∧ (create_folder_structure svcSeq structNoParent "A" "ROOT" true).exn = none
    ∧ (create_folder_structure svcSeq structNoParent "A" "ROOT" true).log
      = [WMsg.warnMissingParent ["X"]] := by
  refine ⟨by decide, by decide, by decide, by decide⟩

/-- C4 counterexample: the writer has no skip-if-present check at all.
With duplicate sibling names the full path `A/B` arises twice: after the
first creation call the path is present in FolderIdMap with id `id0`,
yet a second creation call is issued for the same full path and the
binding is overwritten to `id1` — against the claimed
skip-if-present / first-write-wins / never-remapped behaviour. -/
theorem writer_remap_cx :
    (create_folder_structure svcSeq structDup "A" "ROOT" true).calls
      = [⟨"B", "ROOT", ["A", "B"]⟩, ⟨"B", "ROOT", ["A", "B"]⟩]
    ∧ alGet (create_folder_structure svcSeq structDup "A" "ROOT" true).map ["A", "B"]
      = some "id1"
    ∧ ("id1" : String) ≠ "id0" := by
  refine ⟨by decide, by decide, by decide⟩

/-- C6: per-node read-error containment.  A node whose metadata fetch
fails contributes only an error report, leaving the structure untouched;
a node whose (possibly retried) listing fails contributes its own name
under the parent path plus an error report, and nothing below it; and in
both cases the sibling loop simply continues with the state the failing
node returned — the structure accumulated so far is preserved and
returned, never discarded. -/
theorem reader_error_containment (sh : Bool) (dr : Option String) (t : RNode)
    (path : List String) (r : Rd) :
    (t.metaOkOf = false →
      readNode sh dr t path r = ⟨r.s, r.log ++ [RMsg.errAccess path t.idOf]⟩)
    ∧ (t.metaOkOf = true → ∀ e, nodeListing sh dr t = Except.error e →
      readNode sh dr t path r
        = ⟨appendAt r.s path t.nameOf, r.log ++ [RMsg.errAccess path t.idOf]⟩)
    ∧ (∀ (c : RNode) (rest : List RNode) (q : List String) (r2 : Rd),
      readKids sh dr (c :: rest) q r2
        = readKids sh dr rest q
            (if passesQuery c && (c.mimeOf == folderMime)
             then readNode sh dr c q r2 else r2)) := by
  obtain ⟨fid, nm, mi, tr, mOk, lb, kids⟩ := t
  refine ⟨?_, ?_, ?_⟩
  · intro h
    simp only [RNode.metaOkOf] at h
    subst h
    simp [readNode, RNode.idOf]
  · intro h e he
    simp only [RNode.metaOkOf] at h
    subst h
    unfold nodeListing at he
    simp only [RNode.listBOf, RNode.kidsOf] at he
    simp [readNode, RNode.idOf, RNode.nameOf, he]
  · intro c rest q r2
    rfl

/-- A node whose metadata fetch fails. -/
def tBad : RNode := RNode.mk "f1" "N" folderMime false false ListBehavior.ok []

/-- Witness for `reader_error_containment` at a concrete failing node. -/
theorem reader_error_containment_witness :
    tBad.metaOkOf = false
    ∧ readNode true none tBad ["p"] ⟨[], []⟩ = ⟨[], [RMsg.errAccess ["p"] "f1"]⟩ :=
  ⟨rfl, (reader_error_containment true none tBad ["p"] ⟨[], []⟩).1 rfl⟩

/-- C10: the reader appends the node's name under its parent path
(lines 129-131) before issuing the listing call (lines 151-162), so when
the listing fails the returned structure still shows the node as a child
of its parent, and exactly nothing else changed — only its own subtree
is absent. -/
theorem reader_records_name_before_listing (sh : Bool) (dr : Option String)
    (t : RNode) (path : List String) (r : Rd) (e : PyErr)
    (hm : t.metaOkOf = true) (hl : nodeListing sh dr t = Except.error e) :
    (readNode sh dr t path r).s = appendAt r.s path t.nameOf
    ∧ structLookup (readNode sh dr t path r).s path
      = structLookup r.s path ++ [t.nameOf] := by
  obtain ⟨fid, nm, mi, tr, mOk, lb, kids⟩ := t
  simp only [RNode.metaOkOf] at hm
  subst hm
  unfold nodeListing at hl
  simp only [RNode.listBOf, RNode.kidsOf] at hl
  refine ⟨?_, ?_⟩
  · simp [readNode, RNode.nameOf, hl]
  · simp [readNode, RNode.nameOf, hl, structLookup_appendAt_self]

/-- A node whose metadata fetch succeeds but whose listing fails for
both parameter generations. -/
def tListFail : RNode :=
  RNode.mk "f2" "M" folderMime false true (ListBehavior.failAll (PyErr.apiErr false)) []

/-- Witness for `reader_records_name_before_listing` at a concrete node. -/
theorem reader_records_name_before_listing_witness :
    tListFail.metaOkOf = true
    ∧ ((readNode true none tListFail ["p"] ⟨[], []⟩).s = appendAt [] ["p"] "M"
       ∧ structLookup (readNode true none tListFail ["p"] ⟨[], []⟩).s ["p"]
         = structLookup ([] : Struct) ["p"] ++ ["M"]) :=
  ⟨rfl, reader_records_name_before_listing true none tListFail ["p"] ⟨[], []⟩
    (PyErr.apiErr false) rfl rfl⟩

/-- C7 counterexample: the claim says the reader's one-shot legacy retry
is the only retry behaviour in the system.  But `get_shared_drives`
(lines 282-297) also retries a failed remote call with an alternative:
when the newer `drives()` endpoint fails — here with an error unrelated
to the cross-drive parameter — it calls the legacy `teamdrives()`
endpoint and returns that result. -/
theorem shared_drives_retry_cx :
    get_shared_drives ⟨Except.error (PyErr.apiErr false), Except.ok ["D1"]⟩
      = (["D1"], [DriveEndpoint.drivesEp, DriveEndpoint.teamdrivesEp]) := rfl

/-- C7, amended: when a listing call fails with an error mentioning the
preferred cross-drive parameter, the reader retries exactly once with
the legacy parameter set and takes that second outcome (propagating its
error, if any); and additionally the shared-drive listing retries the
newer endpoint once with the legacy endpoint on any failure — so the
legacy-parameter retry is not the only retry behaviour in the system. -/
theorem listing_retry_behavior :
    (∀ (b : ListBehavior) (cs : List RNode) (p : ListParams) (e : PyErr),
      execList b cs p = Except.error e → mentionsParam e = true →
      (listWithFallback b cs p).2 = [p, legacyParams p]
      ∧ (listWithFallback b cs p).1 = execList b cs (legacyParams p))
    ∧ (∀ (svc : DrivesSvc) (e : PyErr) (ds : List String),
      svc.drives = Except.error e → svc.teamdrives = Except.ok ds →
      get_shared_drives svc
        = (ds, [DriveEndpoint.drivesEp, DriveEndpoint.teamdrivesEp])) := by
  constructor
  · intro b cs p e he hm
    unfold listWithFallback
    rw [he]
    simp [hm]
  · intro svc e ds hd ht
    unfold get_shared_drives
    rw [hd, ht]

/-- The listing parameters of a shared-drive read without an explicit
drive id. -/
def pShared : ListParams := mkListParams true none

/-- Witness for `listing_retry_behavior` at concrete inputs. -/
theorem listing_retry_behavior_witness :
    ((listWithFallback ListBehavior.legacyOnly [] pShared).2
        = [pShared, legacyParams pShared]
      ∧ (listWithFallback ListBehavior.legacyOnly [] pShared).1
        = execList ListBehavior.legacyOnly [] (legacyParams pShared))
    ∧ get_shared_drives ⟨Except.error PyErr.typeError, Except.ok []⟩
      = ([], [DriveEndpoint.drivesEp, DriveEndpoint.teamdrivesEp]) :=
  ⟨listing_retry_behavior.1 ListBehavior.legacyOnly [] pShared (PyErr.apiErr true) rfl rfl,
   listing_retry_behavior.2 ⟨Except.error PyErr.typeError, Except.ok []⟩
     PyErr.typeError [] rfl rfl⟩

theorem readKids_names_of (sh : Bool) (dr : Option String) :
    ∀ (cs : List RNode),
      (∀ c ∈ cs, ∀ (path : List String) (r : Rd) (k : List String) (n : String),
        n ∈ structLookup (readNode sh dr c path r).s k →
        n ∈ structLookup r.s k ∨ (k = path ∧ n = c.nameOf) ∨ hasGoodChild c n = true) →
      ∀ (path : List String) (r : Rd) (k : List String) (n : String),
        n ∈ structLookup (readKids sh dr cs path r).s k →
        n ∈ structLookup r.s k ∨ hasGoodChildL cs n = true := by
  intro cs
  induction cs with
  | nil =>
    intro _IH path r k n h
    simp only [readKids] at h
    exact Or.inl h
  | cons c rest ih =>
    intro IH path r k n h
    simp only [readKids] at h
    have IHrest := ih (fun c2 hc2 => IH c2 (List.mem_cons_of_mem _ hc2))
    by_cases hp : (passesQuery c && (c.mimeOf == folderMime)) = true
    · rw [if_pos hp] at h
      rcases IHrest path (readNode sh dr c path r) k n h with h1 | h1
      · rcases IH c (List.mem_cons_self _ _) path r k n h1 with h2 | h2 | h2
        · exact Or.inl h2
        · refine Or.inr ?_
          have hq : passesQuery c = true := by
            simp only [Bool.and_eq_true] at hp
            exact hp.1
          simp only [hasGoodChildL, Bool.or_eq_true]
          exact Or.inl (Or.inl (by simp [hq, h2.2]))
        · refine Or.inr ?_
          simp only [hasGoodChildL, Bool.or_eq_true]
          exact Or.inl (Or.inr h2)
      · refine Or.inr ?_
        simp only [hasGoodChildL, Bool.or_eq_true]
        exact Or.inr h1
    · rw [if_neg hp] at h
      rcases IHrest path r k n h with h1 | h1
      · exact Or.inl h1
      · refine Or.inr ?_
        simp only [hasGoodChildL, Bool.or_eq_true]
        exact Or.inr h1

theorem readNode_names (sh : Bool) (dr : Option String) :
    ∀ (t : RNode) (path : List String) (r : Rd) (k : List String) (n : String),
      n ∈ structLookup (readNode sh dr t path r).s k →
      n ∈ structLookup r.s k ∨ (k = path ∧ n = t.nameOf) ∨ hasGoodChild t n = true := by
  have main : ∀ (N : Nat) (t : RNode), sizeOf t ≤ N →
      ∀ (path : List String) (r : Rd) (k : List String) (n : String),
        n ∈ structLookup (readNode sh dr t path r).s k →
        n ∈ structLookup r.s k ∨ (k = path ∧ n = t.nameOf) ∨ hasGoodChild t n = true := by
    intro N
    induction N with
    | zero =>
      intro t ht
      exfalso
      obtain ⟨fid, nm, mi, tr, mOk, lb, kids⟩ := t
      simp at ht
    | succ N ih =>
      intro t ht path r k n h
      obtain ⟨fid, nm, mi, tr, mOk, lb, kids⟩ := t
      cases mOk with
      | false =>
        simp only [readNode, Bool.false_eq_true, if_false] at h
        exact Or.inl h
      | true =>
        cases hl : (listWithFallback lb kids (mkListParams sh dr)).1 with
        | error e =>
          simp only [readNode, if_true, hl] at h
          by_cases hkp : k = path
          · subst hkp
            rw [structLookup_appendAt_self] at h
            rcases List.mem_append.mp h with h1 | h1
            · exact Or.inl h1
            · refine Or.inr (Or.inl ⟨rfl, ?_⟩)
              simpa [RNode.nameOf] using h1
          · rw [structLookup_appendAt_ne _ _ _ _ hkp] at h
            exact Or.inl h
        | ok items =>
          simp only [readNode, if_true, hl] at h
          have hkIH : ∀ c ∈ kids, ∀ (path2 : List String) (r2 : Rd) (k2 : List String)
              (n2 : String),
              n2 ∈ structLookup (readNode sh dr c path2 r2).s k2 →
              n2 ∈ structLookup r2.s k2 ∨ (k2 = path2 ∧ n2 = c.nameOf)
                ∨ hasGoodChild c n2 = true := by
            intro c hc
            have hlt : sizeOf c < sizeOf (RNode.mk fid nm mi tr true lb kids) := by
              have h1 := List.sizeOf_lt_of_mem hc
              simp
              omega
            exact ih c (by omega)
          have := readKids_names_of sh dr kids hkIH (path ++ [nm])
            ⟨appendAt r.s path nm, r.log ++ [RMsg.reading (path ++ [nm])]⟩ k n h
          rcases this with h1 | h1
          · change n ∈ structLookup (appendAt r.s path nm) k at h1
            by_cases hkp : k = path
            · subst hkp
              rw [structLookup_appendAt_self] at h1
              rcases List.mem_append.mp h1 with h2 | h2
              · exact Or.inl h2
              · refine Or.inr (Or.inl ⟨rfl, ?_⟩)
                simpa [RNode.nameOf] using h2
            · rw [structLookup_appendAt_ne _ _ _ _ hkp] at h1
              exact Or.inl h1
          · refine Or.inr (Or.inr ?_)
            simpa only [hasGoodChild] using h1
  intro t
  exact main (sizeOf t) t (le_refl _)

/-- C8: every name the reader records under a non-empty key — i.e. every
name in a Structure value other than the root's own — is the name of a
non-trashed, folder-typed child somewhere in the source tree: the
listing query restricts the response to folder-typed, non-trashed
children, and only such items are recursed into and recorded. -/
theorem reader_only_good_children (sh : Bool) (dr : Option String) (t : RNode)
    (k : List String) (n : String) (hk : k ≠ [])
    (hn : n ∈ structLookup (readRoot sh dr t).s k) : hasGoodChild t n = true := by
  rcases readNode_names sh dr t [] ⟨[], []⟩ k n hn with h | h | h
  · simp [structLookup, alGet] at h
  · exact absurd h.1 hk
  · exact h

/-- A two-level source tree: root `R` with a folder-typed, non-trashed
child `X`. -/
def tW : RNode :=
  RNode.mk "r" "R" folderMime false true ListBehavior.ok
    [RNode.mk "c" "X" folderMime false true ListBehavior.ok []]

/-- Witness for `reader_only_good_children` at a concrete tree. -/
theorem reader_only_good_children_witness :
    ((["R"] : List String) ≠ []
      ∧ "X" ∈ structLookup (readRoot true none tW).s ["R"])
    ∧ hasGoodChild tW "X" = true :=
  ⟨⟨by decide, by decide⟩,
   reader_only_good_children true none tW ["R"] "X" (by decide) (by decide)⟩

/-- Base invariant of a writer run whose structure records the source
folder name at the empty path: the root alias binding is in place and
every other binding or creation call concerns a full path of at least
two segments. -/
def WBase (src destId : String) (r : WRun) : Prop :=
  alGet r.map [src] = some destId
  ∧ (∀ p ∈ alKeys r.map, p = [] ∨ p = [src] ∨ 2 ≤ p.length)
  ∧ (∀ c ∈ r.calls, 2 ≤ c.fullPath.length)

theorem wbase_init (struct : Struct) (src destId : String)
    (h : src ∈ structLookup struct []) :
    WBase src destId (writerInit struct src destId) := by
  unfold writerInit WBase
  simp only [if_pos h]
  refine ⟨alGet_alSet_self _ _ _, ?_, ?_⟩
  · intro p hp
    rw [mem_alKeys_alSet] at hp
    rcases hp with hp | hp
    · exact Or.inr (Or.inl hp)
    · rw [mem_alKeys_alSet] at hp
      rcases hp with hp | hp
      · exact Or.inl hp
      · simp [alKeys] at hp
  · intro c hc
    simp at hc

theorem wbase_name (svc : WSvc) (hasCb : Bool) (src destId : String)
    (path : List String) (parentId : String) (hpath : path ≠ [])
    (r : WRun) (nm : String) (hb : WBase src destId r) :
    WBase src destId (processName svc hasCb src path parentId r nm) := by
  obtain ⟨h1, h2, h3⟩ := hb
  unfold processName
  by_cases hsk : path = [] ∧ nm = src
  · rw [if_pos hsk]
    exact ⟨h1, h2, h3⟩
  · rw [if_neg hsk]
    have hlen : 2 ≤ (path ++ [nm]).length := by
      have h0 : 1 ≤ path.length := List.length_pos.mpr hpath
      rw [List.length_append, List.length_singleton]
      omega
    have hne : [src] ≠ path ++ [nm] := by
      intro heq
      apply hpath
      have hlng := congrArg List.length heq
      rw [List.length_append, List.length_singleton, List.length_singleton] at hlng
      have h00 : path.length = 0 := by omega
      exact List.length_eq_zero.mp h00
    cases hc : svc.create r.nCalls with
    | ok newId =>
      refine ⟨?_, ?_, ?_⟩
      · show alGet (alSet r.map (path ++ [nm]) newId) [src] = some destId
        rw [alGet_alSet_ne _ _ _ _ hne]
        exact h1
      · intro p hp
        rw [show alKeys (alSet r.map (path ++ [nm]) newId) = _ from rfl] at hp
        rw [mem_alKeys_alSet] at hp
        rcases hp with hp | hp
        · subst hp
          exact Or.inr (Or.inr hlen)
        · exact h2 p hp
      · intro c hc2
        simp only [List.mem_append, List.mem_singleton] at hc2
        rcases hc2 with hc2 | hc2
        · exact h3 c hc2
        · subst hc2
          exact hlen
    | error e =>
      refine ⟨h1, h2, ?_⟩
      intro c hc2
      simp only [List.mem_append, List.mem_singleton] at hc2
      rcases hc2 with hc2 | hc2
      · exact h3 c hc2
      · subst hc2
        exact hlen

theorem wbase_fold (svc : WSvc) (hasCb : Bool) (src destId : String)
    (path : List String) (parentId : String) (hpath : path ≠ []) :
    ∀ (names : List String) (r : WRun), WBase src destId r →
      WBase src destId (names.foldl (processName svc hasCb src path parentId) r) := by
  intro names
  induction names with
  | nil => intro r hb; exact hb
  | cons nm rest ih =>
    intro r hb
    exact ih _ (wbase_name svc hasCb src destId path parentId hpath r nm hb)

theorem wbase_path (svc : WSvc) (hasCb : Bool) (struct : Struct) (src destId : String)
    (h : src ∈ structLookup struct []) (r : WRun) (path : List String)
    (hb : WBase src destId r) :
    WBase src destId (processPath svc hasCb struct src destId r path) := by
  unfold processPath
  by_cases he : r.exn.isSome
  · rw [if_pos he]; exact hb
  · rw [if_neg he]
    by_cases hsk : path = [] ∧ src ∈ structLookup struct []
    · rw [if_pos hsk]; exact hb
    · rw [if_neg hsk]
      have hpath : path ≠ [] := by
        intro hp
        exact hsk ⟨hp, h⟩
      by_cases hg : alHas r.map path.dropLast = false ∧ path ≠ []
      · rw [if_pos hg]
        by_cases hcb : hasCb
        · rw [if_pos hcb]
          exact ⟨hb.1, hb.2.1, hb.2.2⟩
        · rw [if_neg hcb]
          exact ⟨hb.1, hb.2.1, hb.2.2⟩
      · rw [if_neg hg]
        exact wbase_fold svc hasCb src destId path _ hpath _ r hb

theorem wbase_run (svc : WSvc) (hasCb : Bool) (struct : Struct) (src destId : String)
    (h : src ∈ structLookup struct []) :
    ∀ (ks : List (List String)) (r : WRun), WBase src destId r →
      WBase src destId (ks.foldl (processPath svc hasCb struct src destId) r) := by
  intro ks
  induction ks with
  | nil => intro r hb; exact hb
  | cons k rest ih =>
    intro r hb
    exact ih _ (wbase_path svc hasCb struct src destId h r k hb)

/-- C3: root aliasing.  When the source folder name appears among the
children recorded at the empty path, the writer maps that name directly
to the destination root id (lines 188-189), the binding survives the
whole run because every creation is recorded under a full path of at
least two segments, and no creation call is ever issued for the root
name itself (the empty-path level is skipped, lines 204-206). -/
theorem writer_root_alias (svc : WSvc) (struct : Struct) (src destId : String)
    (hasCb : Bool) (h : src ∈ structLookup struct []) :
    alGet (create_folder_structure svc struct src destId hasCb).map [src] = some destId
    ∧ ∀ c ∈ (create_folder_structure svc struct src destId hasCb).calls,
      c.fullPath ≠ [src] := by
  have hb := wbase_run svc hasCb struct src destId h (writerKeys struct)
    (writerInit struct src destId) (wbase_init struct src destId h)
  refine ⟨hb.1, ?_⟩
  intro c hc heq
  have := hb.2.2 c hc
  rw [heq] at this
  simp at this

/-- C9: with the source name at the empty path, the whole empty-path
level is skipped: a sibling name recorded there never receives a
creation call and never enters FolderIdMap. -/
theorem writer_empty_level_skipped (svc : WSvc) (struct : Struct) (src destId : String)
    (hasCb : Bool) (n : String) (h : src ∈ structLookup struct [])
    (hn : n ∈ structLookup struct []) (hne : n ≠ src) :
    alGet (create_folder_structure svc struct src destId hasCb).map [n] = none
    ∧ ∀ c ∈ (create_folder_structure svc struct src destId hasCb).calls,
      c.fullPath ≠ [n] := by
  have hb := wbase_run svc hasCb struct src destId h (writerKeys struct)
    (writerInit struct src destId) (wbase_init struct src destId h)
  refine ⟨?_, ?_⟩
  · apply alGet_eq_none_of_not_mem
    intro hmem
    rcases hb.2.1 [n] hmem with hp | hp | hp
    · simp at hp
    · simp at hp
      exact hne hp
    · simp at hp
  · intro c hc heq
    have := hb.2.2 c hc
    rw [heq] at this
    simp at this

/-- A structure recording two names at the empty path, the source name
`A` and a sibling `E`. -/
def structW3 : Struct := [([], ["A", "E"]), (["A"], ["B"])]

/-- Witness for `writer_root_alias` at a concrete structure. -/
theorem writer_root_alias_witness :
    "A" ∈ structLookup structW3 []
    ∧ (alGet (create_folder_structure svcSeq structW3 "A" "ROOT" true).map ["A"]
        = some "ROOT"
      ∧ ∀ c ∈ (create_folder_structure svcSeq structW3 "A" "ROOT" true).calls,
        c.fullPath ≠ ["A"]) :=
  ⟨by decide, writer_root_alias svcSeq structW3 "A" "ROOT" true (by decide)⟩

/-- Witness for `writer_empty_level_skipped` at a concrete structure. -/
theorem writer_empty_level_skipped_witness :
    ("A" ∈ structLookup structW3 [] ∧ "E" ∈ structLookup structW3 []
      ∧ ("E" : String) ≠ "A")
    ∧ (alGet (create_folder_structure svcSeq structW3 "A" "ROOT" true).map ["E"] = none
      ∧ ∀ c ∈ (create_folder_structure svcSeq structW3 "A" "ROOT" true).calls,
        c.fullPath ≠ ["E"]) :=
  ⟨⟨by decide, by decide, by decide⟩,
   writer_empty_level_skipped svcSeq structW3 "A" "ROOT" true "E"
     (by decide) (by decide) (by decide)⟩

theorem keys_mono_name (svc : WSvc) (hasCb : Bool) (src : String) (path : List String)
    (parentId : String) (r : WRun) (nm : String) (p : List String)
    (hp : p ∈ alKeys r.map) :
    p ∈ alKeys (processName svc hasCb src path parentId r nm).map := by
  unfold processName
  by_cases hsk : path = [] ∧ nm = src
  · rw [if_pos hsk]; exact hp
  · rw [if_neg hsk]
    cases hc : svc.create r.nCalls with
    | ok newId =>
      show p ∈ alKeys (alSet r.map (path ++ [nm]) newId)
      rw [mem_alKeys_alSet]
      exact Or.inr hp
    | error e => exact hp

theorem keys_mono_fold (svc : WSvc) (hasCb : Bool) (src : String) (path : List String)
    (parentId : String) :
    ∀ (names : List String) (r : WRun) (p : List String), p ∈ alKeys r.map →
      p ∈ alKeys ((names.foldl (processName svc hasCb src path parentId) r)).map := by
  intro names
  induction names with
  | nil => intro r p hp; exact hp
  | cons nm rest ih =>
    intro r p hp
    exact ih _ p (keys_mono_name svc hasCb src path parentId r nm p hp)

theorem keys_mono_path (svc : WSvc) (hasCb : Bool) (struct : Struct) (src destId : String)
    (r : WRun) (path : List String) (p : List String) (hp : p ∈ alKeys r.map) :
    p ∈ alKeys (processPath svc hasCb struct src destId r path).map := by
  unfold processPath
  by_cases he : r.exn.isSome
  · rw [if_pos he]; exact hp
  · rw [if_neg he]
    by_cases hsk : path = [] ∧ src ∈ structLookup struct []
    · rw [if_pos hsk]; exact hp
    · rw [if_neg hsk]
      by_cases hg : alHas r.map path.dropLast = false ∧ path ≠ []
      · rw [if_pos hg]
        by_cases hcb : hasCb
        · rw [if_pos hcb]; exact hp
        · rw [if_neg hcb]; exact hp
      · rw [if_neg hg]
        exact keys_mono_fold svc hasCb src path _ _ r p hp

theorem keys_mono_run (svc : WSvc) (hasCb : Bool) (struct : Struct) (src destId : String) :
    ∀ (ks : List (List String)) (r : WRun) (p : List String), p ∈ alKeys r.map →
      p ∈ alKeys ((ks.foldl (processPath svc hasCb struct src destId) r)).map := by
  intro ks
  induction ks with
  | nil => intro r p hp; exact hp
  | cons k rest ih =>
    intro r p hp
    exact ih _ p (keys_mono_path svc hasCb struct src destId r k p hp)

/-- C4, amended: during a writer run the key set of FolderIdMap grows
monotonically — a path present after processing the first `i` sorted keys
is still present after processing the first `j ≥ i` — but an
already-present full path is NOT skipped: whenever the inner loop handles
a child name outside the root-alias case, it issues a creation call
unconditionally and assigns `folder_id_map[new_path] = new_folder_id`
(line 248), overwriting any existing binding for that path
(last-write-wins), as a run on duplicate sibling names exhibits. -/
theorem writer_map_monotone :
    (∀ (svc : WSvc) (struct : Struct) (src destId : String) (hasCb : Bool)
      (i j : Nat), i ≤ j → ∀ p : List String,
      p ∈ alKeys (runOn svc hasCb struct src destId ((writerKeys struct).take i)).map →
      p ∈ alKeys (runOn svc hasCb struct src destId ((writerKeys struct).take j)).map)
    ∧ (∀ (svc : WSvc) (hasCb : Bool) (src : String) (path : List String)
      (parentId : String) (r : WRun) (nm : String) (newId : String),
      svc.create r.nCalls = Except.ok newId → ¬(path = [] ∧ nm = src) →
      alGet (processName svc hasCb src path parentId r nm).map (path ++ [nm])
        = some newId
      ∧ (processName svc hasCb src path parentId r nm).calls
        = r.calls ++ [⟨nm, parentId, path ++ [nm]⟩]) := by
  constructor
  · intro svc struct src destId hasCb i j hij p hp
    have hsplit : (writerKeys struct).take j
        = (writerKeys struct).take i ++ ((writerKeys struct).drop i).take (j - i) := by
      rw [← List.take_add]
      congr 1
      omega
    rw [hsplit]
    unfold runOn at hp ⊢
    rw [List.foldl_append]
    exact keys_mono_run svc hasCb struct src destId _ _ p hp
  · intro svc hasCb src path parentId r nm newId hok hsk
    unfold processName
    rw [if_neg hsk, hok]
    exact ⟨alGet_alSet_self _ _ _, rfl⟩

/-- Witness for `writer_map_monotone` at concrete inputs. -/
theorem writer_map_monotone_witness :
    ((1 ≤ 2 ∧ ["A", "B"] ∈ alKeys
        (runOn svcSeq true structDup "A" "ROOT" ((writerKeys structDup).take 2)).map)
      ∧ ["A", "B"] ∈ alKeys
        (runOn svcSeq true structDup "A" "ROOT" ((writerKeys structDup).take 2)).map)
    ∧ (svcSeq.create 0 = Except.ok "id0" ∧ ¬((["A"] : List String) = [] ∧ "B" = "A")
      ∧ (alGet (processName svcSeq true "A" ["A"] "ROOT" ⟨[], 0, [], [], none⟩ "B").map
          (["A"] ++ ["B"]) = some "id0"
        ∧ (processName svcSeq true "A" ["A"] "ROOT" ⟨[], 0, [], [], none⟩ "B").calls
          = [] ++ [⟨"B", "ROOT", ["A"] ++ ["B"]⟩])) :=
  ⟨⟨⟨by decide, by decide⟩,
    writer_map_monotone.1 svcSeq structDup "A" "ROOT" true 2 2 (by decide)
      ["A", "B"] (by decide)⟩,
   ⟨rfl, by decide,
    writer_map_monotone.2 svcSeq true "A" ["A"] "ROOT" ⟨[], 0, [], [], none⟩ "B" "id0"
      rfl (by decide)⟩⟩

/-- Well-formedness of one structure key: a non-empty key decomposes as
`parent ++ [last]` with the parent itself a key and the last segment
recorded among the parent's children. -/
def wfKeyOk (struct : Struct) (k : List String) : Bool :=
  match k.getLast? with
  | none => true
  | some n =>
    decide (k.dropLast ∈ alKeys struct) && decide (n ∈ structLookup struct k.dropLast)

/-- A Structure as the reader produces it (section 3 of the
specification): every non-empty key is a recorded child of its parent
key, and the empty path records exactly the source root's name — the
"implicit root alias". -/
def WriterWF (struct : Struct) (src : String) : Prop :=
  (∀ k ∈ alKeys struct, wfKeyOk struct k = true)
  ∧ src ∈ structLookup struct []
  ∧ (∀ n ∈ structLookup struct [], n = src)

instance (struct : Struct) (src : String) : Decidable (WriterWF struct src) := by
  unfold WriterWF
  infer_instance

/-- A creation service all of whose calls succeed. -/
def CreatesOk (svc : WSvc) : Prop :=
  ∀ i : Nat, ∃ newId : String, svc.create i = Except.ok newId

theorem wf_decompose (struct : Struct) (src : String) (hwf : WriterWF struct src)
    (p : List String) (n : String) (hmem : p ++ [n] ∈ alKeys struct) :
    p ∈ alKeys struct ∧ n ∈ structLookup struct p := by
  have h1 := hwf.1 _ hmem
  unfold wfKeyOk at h1
  simp only [List.getLast?_concat, List.dropLast_concat, Bool.and_eq_true,
    decide_eq_true_eq] at h1
  exact h1

/-- Invariant of the writer after processing the key list `processed`
(a prefix of the sorted keys), for a well-formed structure: no exception
has been raised and the map's keys are exactly the empty path, the root
alias, and the full paths of the children of the processed non-empty
keys. -/
def InvKeys (struct : Struct) (src : String) (processed : List (List String))
    (r : WRun) : Prop :=
  r.exn = none
  ∧ ∀ p : List String, p ∈ alKeys r.map ↔
      p = [] ∨ p = [src]
      ∨ ∃ q, q ∈ processed ∧ q ≠ [] ∧ ∃ n, n ∈ structLookup struct q ∧ p = q ++ [n]

theorem inv_init (struct : Struct) (src destId : String)
    (h : src ∈ structLookup struct []) :
    InvKeys struct src [] (writerInit struct src destId) := by
  refine ⟨rfl, ?_⟩
  intro p
  have hmap : (writerInit struct src destId).map
      = alSet (alSet ([] : List (List String × String)) [] destId) [src] destId := by
    unfold writerInit
    simp only [if_pos h]
  rw [hmap, mem_alKeys_alSet, mem_alKeys_alSet]
  constructor
  · rintro (hp | hp | hp)
    · exact Or.inr (Or.inl hp)
    · exact Or.inl hp
    · simp [alKeys] at hp
  · rintro (hp | hp | ⟨q, hq, _, _⟩)
    · exact Or.inr (Or.inl hp)
    · exact Or.inl hp
    · simp at hq

theorem memEarly (struct : Struct) (pre : List (List String)) (k : List String)
    (post : List (List String)) (hsplit : writerKeys struct = pre ++ k :: post)
    (j : List String) (hj : j ∈ alKeys struct) (hlt : sepCount j < sepCount k) :
    j ∈ pre := by
  have hmem : j ∈ writerKeys struct := (mem_ssort j _).mpr hj
  rw [hsplit] at hmem
  rcases List.mem_append.mp hmem with h | h
  · exact h
  · exfalso
    have hpw : (pre ++ k :: post).Pairwise (fun a b => sepCount a ≤ sepCount b) := by
      rw [← hsplit]
      exact pairwise_ssort _
    have h2 := (List.pairwise_append.mp hpw).2.1
    rcases List.mem_cons.mp h with rfl | h3
    · omega
    · have h4 := (List.pairwise_cons.mp h2).1 j h3
      omega

theorem cntLe (struct : Struct) (pre : List (List String)) (k : List String)
    (post : List (List String)) (hsplit : writerKeys struct = pre ++ k :: post)
    (j : List String) (hj : j ∈ pre ∨ j = k) : sepCount j ≤ sepCount k := by
  rcases hj with hj | rfl
  · have hpw : (pre ++ k :: post).Pairwise (fun a b => sepCount a ≤ sepCount b) := by
      rw [← hsplit]
      exact pairwise_ssort _
    exact (List.pairwise_append.mp hpw).2.2 j hj k (List.mem_cons_self _ _)
  · exact le_refl _

theorem key_in_map (struct : Struct) (src : String) (hwf : WriterWF struct src)
    (pre : List (List String)) (k : List String) (post : List (List String))
    (hsplit : writerKeys struct = pre ++ k :: post)
    (r : WRun) (hinv : InvKeys struct src pre r)
    (j : List String) (hjk : j ∈ alKeys struct) (hjne : j ≠ [])
    (hjpos : j ∈ pre ∨ j = k) :
    j ∈ alKeys r.map := by
  obtain ⟨j2, n2, rfl⟩ : ∃ j2 n2, j = j2 ++ [n2] := by
    rcases List.eq_nil_or_concat j with h | ⟨j2, n2, h⟩
    · exact absurd h hjne
    · exact ⟨j2, n2, by rw [h, List.concat_eq_append]⟩
  obtain ⟨hj2keys, hn2⟩ := wf_decompose struct src hwf j2 n2 hjk
  by_cases hj0 : j2 = []
  · subst hj0
    have hsrc := hwf.2.2 n2 hn2
    refine (hinv.2 _).mpr (Or.inr (Or.inl ?_))
    rw [hsrc]
    rfl
  · have hlt : sepCount j2 < sepCount (j2 ++ [n2]) := by
      unfold sepCount
      rw [List.length_append, List.length_singleton]
      have h0 : 1 ≤ j2.length := List.length_pos.mpr hj0
      omega
    have hle : sepCount (j2 ++ [n2]) ≤ sepCount k :=
      cntLe struct pre k post hsplit _ hjpos
    have hj2pre : j2 ∈ pre :=
      memEarly struct pre k post hsplit j2 hj2keys (by omega)
    exact (hinv.2 _).mpr (Or.inr (Or.inr ⟨j2, hj2pre, hj0, n2, hn2, rfl⟩))

theorem fold_keys (svc : WSvc) (hok : CreatesOk svc) (hasCb : Bool) (src : String)
    (path : List String) (hpath : path ≠ []) (parentId : String) :
    ∀ (names : List String) (r : WRun),
      (∀ p, p ∈ alKeys ((names.foldl (processName svc hasCb src path parentId) r)).map ↔
        p ∈ alKeys r.map ∨ ∃ n, n ∈ names ∧ p = path ++ [n])
      ∧ ((names.foldl (processName svc hasCb src path parentId) r)).exn = r.exn := by
  intro names
  induction names with
  | nil =>
    intro r
    refine ⟨fun p => ?_, rfl⟩
    simp
  | cons nm rest ih =>
    intro r
    rw [List.foldl_cons]
    obtain ⟨newId, hni⟩ := hok r.nCalls
    have hskip : ¬(path = [] ∧ nm = src) := fun hc => hpath hc.1
    have hstep : processName svc hasCb src path parentId r nm =
        { map := alSet r.map (path ++ [nm]) newId
          nCalls := r.nCalls + 1
          calls := r.calls ++ [⟨nm, parentId, path ++ [nm]⟩]
          log := r.log ++ (if hasCb then [WMsg.created (path ++ [nm]) newId] else [])
          exn := r.exn } := by
      unfold processName
      rw [if_neg hskip, hni]
    rw [hstep]
    obtain ⟨ihk, ihe⟩ := ih
      { map := alSet r.map (path ++ [nm]) newId
        nCalls := r.nCalls + 1
        calls := r.calls ++ [⟨nm, parentId, path ++ [nm]⟩]
        log := r.log ++ (if hasCb then [WMsg.created (path ++ [nm]) newId] else [])
        exn := r.exn }
    constructor
    · intro p
      rw [ihk p]
      show (p ∈ alKeys (alSet r.map (path ++ [nm]) newId) ∨ _) ↔ _
      rw [mem_alKeys_alSet]
      constructor
      · rintro ((h | h) | ⟨n, hn, rfl⟩)
        · exact Or.inr ⟨nm, List.mem_cons_self _ _, h⟩
        · exact Or.inl h
        · exact Or.inr ⟨n, List.mem_cons_of_mem _ hn, rfl⟩
      · rintro (h | ⟨n, hn, rfl⟩)
        · exact Or.inl (Or.inr h)
        · rcases List.mem_cons.mp hn with rfl | hn2
          · exact Or.inl (Or.inl rfl)
          · exact Or.inr ⟨n, hn2, rfl⟩
    · rw [ihe]

theorem inv_step (svc : WSvc) (hok : CreatesOk svc) (hasCb : Bool) (struct : Struct)
    (src destId : String) (hwf : WriterWF struct src)
    (pre : List (List String)) (k : List String) (post : List (List String))
    (hsplit : writerKeys struct = pre ++ k :: post)
    (r : WRun) (hinv : InvKeys struct src pre r) :
    InvKeys struct src (pre ++ [k]) (processPath svc hasCb struct src destId r k) := by
  have hexn : ¬ r.exn.isSome = true := by rw [hinv.1]; simp
  unfold processPath
  rw [if_neg hexn]
  by_cases hk : k = []
  · subst hk
    rw [if_pos ⟨rfl, hwf.2.1⟩]
    refine ⟨hinv.1, ?_⟩
    intro p
    rw [hinv.2 p]
    constructor
    · rintro (hp | hp | ⟨q, hq, hqne, hrest⟩)
      · exact Or.inl hp
      · exact Or.inr (Or.inl hp)
      · exact Or.inr (Or.inr ⟨q, List.mem_append_left _ hq, hqne, hrest⟩)
    · rintro (hp | hp | ⟨q, hq, hqne, hrest⟩)
      · exact Or.inl hp
      · exact Or.inr (Or.inl hp)
      · rcases List.mem_append.mp hq with hq2 | hq2
        · exact Or.inr (Or.inr ⟨q, hq2, hqne, hrest⟩)
        · exact absurd (List.mem_singleton.mp hq2) hqne
  · have hkkeys : k ∈ alKeys struct := by
      have h3 : k ∈ writerKeys struct := by
        rw [hsplit]
        exact List.mem_append_right _ (List.mem_cons_self _ _)
      exact (mem_ssort k _).mp h3
    have hskip : ¬(k = [] ∧ src ∈ structLookup struct []) := fun hc => hk hc.1
    rw [if_neg hskip]
    have hdrop : k.dropLast ∈ alKeys r.map := by
      by_cases hd : k.dropLast = []
      · rw [hd]
        exact (hinv.2 []).mpr (Or.inl rfl)
      · obtain ⟨k2, n2, rfl⟩ : ∃ k2 n2, k = k2 ++ [n2] := by
          rcases List.eq_nil_or_concat k with h | ⟨k2, n2, h⟩
          · exact absurd h hk
          · exact ⟨k2, n2, by rw [h, List.concat_eq_append]⟩
        rw [List.dropLast_concat] at hd ⊢
        obtain ⟨hk2keys, _⟩ := wf_decompose struct src hwf k2 n2 hkkeys
        refine key_in_map struct src hwf pre _ post hsplit r hinv k2 hk2keys hd
          (Or.inl (memEarly struct pre _ post hsplit k2 hk2keys ?_))
        unfold sepCount
        rw [List.length_append, List.length_singleton]
        have h0 : 1 ≤ k2.length := List.length_pos.mpr hd
        omega
    have hguard : ¬(alHas r.map k.dropLast = false ∧ k ≠ []) := by
      rintro ⟨hc1, _⟩
      rw [(alHas_iff_mem r.map k.dropLast).mpr hdrop] at hc1
      exact absurd hc1 (by decide)
    rw [if_neg hguard]
    obtain ⟨hfk, hfe⟩ := fold_keys svc hok hasCb src k hk
      ((alGet r.map k.dropLast).getD destId) (structLookup struct k) r
    refine ⟨by rw [hfe, hinv.1], ?_⟩
    intro p
    rw [hfk p, hinv.2 p]
    constructor
    · rintro ((hp | hp | ⟨q, hq, hqne, hrest⟩) | ⟨n, hn, rfl⟩)
      · exact Or.inl hp
      · exact Or.inr (Or.inl hp)
      · exact Or.inr (Or.inr ⟨q, List.mem_append_left _ hq, hqne, hrest⟩)
      · exact Or.inr (Or.inr
          ⟨k, List.mem_append_right _ (List.mem_singleton.mpr rfl), hk, n, hn, rfl⟩)
    · rintro (hp | hp | ⟨q, hq, hqne, n, hn, hpe⟩)
      · exact Or.inl (Or.inl hp)
      · exact Or.inl (Or.inr (Or.inl hp))
      · rcases List.mem_append.mp hq with hq2 | hq2
        · exact Or.inl (Or.inr (Or.inr ⟨q, hq2, hqne, n, hn, hpe⟩))
        · have hqk : q = k := List.mem_singleton.mp hq2
          subst hqk
          exact Or.inr ⟨n, hn, hpe⟩

theorem inv_upto (svc : WSvc) (hok : CreatesOk svc) (hasCb : Bool) (struct : Struct)
    (src destId : String) (hwf : WriterWF struct src) :
    ∀ (pre post : List (List String)), writerKeys struct = pre ++ post →
      InvKeys struct src pre (runOn svc hasCb struct src destId pre) := by
  intro pre
  induction pre using List.reverseRecOn with
  | nil =>
    intro post h
    exact inv_init struct src destId hwf.2.1
  | append_singleton pre k ih =>
    intro post h
    rw [List.append_assoc] at h
    have hsplit : writerKeys struct = pre ++ k :: post := by simpa using h
    have hinv := ih (k :: post) hsplit
    unfold runOn at hinv ⊢
    rw [List.foldl_append]
    exact inv_step svc hok hasCb struct src destId hwf pre k post hsplit _ hinv

/-- C2: depth ordering.  For a well-formed Structure (every non-empty key
is a recorded child of its parent key, and the empty path records the
source root's name) and a creation service that succeeds, processing the
keys in separator-count order never places a child before its parent: a
path that enters FolderIdMap during a processing step has its parent path
(all but the last segment) already present in the map when the step
starts — and since a step inserting `p = key ++ [n]` never inserts `key`
itself, the parent is present at the exact moment of insertion. -/
theorem writer_depth_order (svc : WSvc) (struct : Struct) (src destId : String)
    (hasCb : Bool) (hwf : WriterWF struct src) (hok : CreatesOk svc)
    (pre : List (List String)) (k : List String) (post : List (List String))
    (hsplit : writerKeys struct = pre ++ k :: post) (p : List String)
    (hp : p ∈ alKeys (runOn svc hasCb struct src destId (pre ++ [k])).map) :
    p ∈ alKeys (runOn svc hasCb struct src destId pre).map
    ∨ p.dropLast ∈ alKeys (runOn svc hasCb struct src destId pre).map := by
  have hinvPre : InvKeys struct src pre (runOn svc hasCb struct src destId pre) :=
    inv_upto svc hok hasCb struct src destId hwf pre (k :: post) hsplit
  have hrw : runOn svc hasCb struct src destId (pre ++ [k])
      = processPath svc hasCb struct src destId
          (runOn svc hasCb struct src destId pre) k := by
    unfold runOn
    rw [List.foldl_append]
    rfl
  rw [hrw] at hp
  have hinvNext := inv_step svc hok hasCb struct src destId hwf pre k post hsplit _
    hinvPre
  rcases (hinvNext.2 p).mp hp with h | h | ⟨q, hq, hqne, n, hn, hpe⟩
  · exact Or.inl ((hinvPre.2 p).mpr (Or.inl h))
  · exact Or.inl ((hinvPre.2 p).mpr (Or.inr (Or.inl h)))
  · rcases List.mem_append.mp hq with hq2 | hq2
    · exact Or.inl ((hinvPre.2 p).mpr (Or.inr (Or.inr ⟨q, hq2, hqne, n, hn, hpe⟩)))
    · have hqk : q = k := List.mem_singleton.mp hq2
      subst hqk
      right
      rw [hpe, List.dropLast_concat]
      have hkkeys : q ∈ alKeys struct := by
        have h3 : q ∈ writerKeys struct := by
          rw [hsplit]
          exact List.mem_append_right _ (List.mem_cons_self _ _)
        exact (mem_ssort q _).mp h3
      exact key_in_map struct src hwf pre q post hsplit _ hinvPre q hkkeys hqne
        (Or.inr rfl)

/-- Witness for `writer_depth_order` on the specification's scenario:
processing the third sorted key inserts `A/B/D`, whose parent path `A/B`
is already in the map after the first two keys. -/
theorem writer_depth_order_witness :
    (WriterWF structDemo "A"
      ∧ writerKeys structDemo = [[], ["A"]] ++ ["A", "B"] :: []
      ∧ ["A", "B", "D"] ∈ alKeys
          (runOn svcSeq true structDemo "A" "ROOT" ([[], ["A"]] ++ [["A", "B"]])).map)
    ∧ (["A", "B", "D"] ∈ alKeys (runOn svcSeq true structDemo "A" "ROOT" [[], ["A"]]).map
      ∨ ["A", "B", "D"].dropLast ∈ alKeys
          (runOn svcSeq true structDemo "A" "ROOT" [[], ["A"]]).map) :=
  ⟨⟨by decide, by decide, by decide⟩,
   writer_depth_order svcSeq structDemo "A" "ROOT" true (by decide)
     (fun i => ⟨idName i, rfl⟩) [[], ["A"]] ["A", "B"] [] (by decide)
     ["A", "B", "D"] (by decide)⟩
